import Mathlib

/-!
Verification of the krossbar-settings store
(src/krossbar-settings-common/src/settings.rs).

The store keeps key/value settings in one JSON file. Every accessor goes
through `modify_settings`: seek to the start, read the whole file, parse it
as JSON, require an object root, run the operation on the in-memory map and,
for mutating operations that succeeded, write the map back pretty-printed.

The embedding models the backing file as an in-memory character buffer with
a cursor (`FileState`) and records the file operations `modify_settings`
performs as an ordered trace of `Event`s. The JSON library (serde_json) is a
dependency, not part of the repository; it enters the model as `JsonCodec`,
the contract the program relies on (a serializer and a parser that inverts
it, rejecting empty input and accepting the literal empty object), together
with a concrete executable instance (`modelCodec`) used to evaluate the
statements on concrete inputs. Typed conversion for a supported value type
(serde to_value / from_value) is likewise abstracted as `Serde`.
-/

/-- A JSON value, following serde_json::Value. Numbers are modelled as exact
integers: the program never computes with numbers, and floating-point values
are outside this model. Objects are association lists with unique keys
(serde_json::Map). -/
inductive Json where
  | null
  | bool (b : Bool)
  | num (n : Int)
  | str (s : String)
  | arr (xs : List Json)
  | obj (m : List (String × Json))

/-- The in-memory settings map: serde_json::Map, string keys to JSON values. -/
abbrev JMap := List (String × Json)

/-- Well-formedness of a settings map: keys strictly ascending, the invariant
the ordered map underlying serde_json::Map maintains (in particular keys are
pairwise distinct). -/
def mapWF (m : JMap) : Prop := (m.map Prod.fst).Pairwise (· < ·)

/-- serde_json::Map::contains_key. -/
def mapContainsKey (key : String) (m : JMap) : Bool :=
  m.any fun p => p.1 == key

/-- serde_json::Map::remove: the removed value (if any) and the map without
the binding. -/
def mapRemove (key : String) : JMap → Option Json × JMap
  | [] => (none, [])
  | (k, v) :: rest =>
    if k = key then (some v, rest)
    else
      let r := mapRemove key rest
      (r.1, (k, v) :: r.2)

/-- serde_json::Map::insert: replace the binding if the key is present,
otherwise insert it (in key order, as the underlying ordered map does). -/
def mapInsert (key : String) (val : Json) : JMap → JMap
  | [] => [(key, val)]
  | (k, v) :: rest =>
    if key = k then (key, val) :: rest
    else if key < k then (key, val) :: (k, v) :: rest
    else (k, v) :: mapInsert key val rest

/-- Modelled from the spec: the crate-level `Error` enum. src/ carries only
settings.rs; the enum itself lives elsewhere in the crate. Variants follow
the spec's error kinds and the constructors settings.rs applies: IoError,
Corrupted, Type and NotFound, the first three carrying the underlying
library error message. -/
inductive Error where
  | ioError (msg : String)
  | corrupted (msg : String)
  | typeError (msg : String)
  | notFound

/-- The backing settings file: its content and the cursor position. -/
structure FileState where
  content : List Char
  pos : Nat

/-- One observable file operation performed by `modify_settings`. -/
inductive Event where
  | seekStart
  | readToEnd
  | setLen (n : Nat)
  | writeAll (data : List Char)

/-- File::seek(SeekFrom::Start(0)). -/
def seekStart (fs : FileState) : FileState := { fs with pos := 0 }

/-- File::read_to_end: everything from the cursor to the end of the file;
the cursor moves to the end. -/
def readToEnd (fs : FileState) : List Char × FileState :=
  (fs.content.drop fs.pos, { fs with pos := fs.content.length })

/-- File::set_len(0): truncate to zero length; the cursor does not move. -/
def truncateZero (fs : FileState) : FileState := { fs with content := [] }

/-- File::write_all at the cursor: overwrite in place, extending the file as
needed; the cursor advances past the written data. -/
def writeAll (data : List Char) (fs : FileState) : FileState :=
  { content := fs.content.take fs.pos ++ data ++ fs.content.drop (fs.pos + data.length),
    pos := fs.pos + data.length }

/-- The contract of the JSON library (serde_json), which is a dependency and
not part of this repository: a pretty serializer (to_vec_pretty) and a parser
(from_slice) that inverts it, rejects empty input with some library message,
and accepts the literal empty object the store writes on creation. -/
structure JsonCodec where
  pretty : Json → List Char
  parse : List Char → Except String Json
  emptyMsg : String
  roundtrip : ∀ j : Json, parse (pretty j) = Except.ok j
  parse_empty : parse [] = Except.error emptyMsg
  parse_init : parse ("\x7b\x7d".data) = Except.ok (Json.obj [])

/-- result.is_ok() on the supplied function's result. -/
def excOk {ε α : Type} : Except ε α → Bool
  | Except.ok _ => true
  | Except.error _ => false

/-- The error message of the non-object-root branch of `modify_settings`,
verbatim from the source. -/
def rootErrorMsg : String := "Root settings elemetn is not an Object"

/-- Settings::modify_settings: seek to offset 0, read the whole file, parse
it as JSON (Corrupted on failure), require an object root (Corrupted
otherwise), run `func` on the map and, when `write_back` is set and `func`
succeeded, seek to 0, truncate, and write the map back pretty-printed. The
returned trace lists the file operations in order. `func` returning `none`
models a panic inside the supplied closure, which propagates. -/
def modify_settings {T : Type} (c : JsonCodec) (write_back : Bool)
    (func : JMap → Option (Except Error T × JMap)) (fs : FileState) :
    Option (Except Error T × FileState × List Event) :=
  let fs1 := seekStart fs
  let rd := readToEnd fs1
  match c.parse rd.1 with
  | Except.error e =>
    some (Except.error (Error.corrupted e), rd.2, [Event.seekStart, Event.readToEnd])
  | Except.ok json =>
    match json with
    | Json.obj map =>
      match func map with
      | none => none
      | some (result, map2) =>
        if write_back && excOk result then
          let fs3 := seekStart rd.2
          let fs4 := truncateZero fs3
          let out := c.pretty (Json.obj map2)
          let fs5 := writeAll out fs4
          some (result, fs5,
            [Event.seekStart, Event.readToEnd, Event.seekStart,
             Event.setLen 0, Event.writeAll out])
        else
          some (result, rd.2, [Event.seekStart, Event.readToEnd])
    | _ =>
      some (Except.error (Error.corrupted rootErrorMsg), rd.2,
        [Event.seekStart, Event.readToEnd])

/-- The contract of serde typed conversion for a supported value type:
serde_json::to_value and serde_json::from_value, with the library guarantee
that deserializing a successfully serialized value returns it. -/
structure Serde (α : Type) where
  toJson : α → Except String Json
  fromJson : Json → Except String α
  roundtrip : ∀ (a : α) (j : Json), toJson a = Except.ok j → fromJson j = Except.ok a

/-- The closure Settings::get passes to modify_settings: remove the key's
entry and deserialize it, NotFound when absent, Type error on mismatch. -/
def getFunc {α : Type} (sd : Serde α) (key : String) (map : JMap) :
    Option (Except Error α × JMap) :=
  let r := mapRemove key map
  match r.1 with
  | some settingsValue =>
    match sd.fromJson settingsValue with
    | Except.ok v => some (Except.ok v, r.2)
    | Except.error e => some (Except.error (Error.typeError e), r.2)
  | none => some (Except.error Error.notFound, r.2)

/-- Settings::get. -/
def Settings.get {α : Type} (c : JsonCodec) (sd : Serde α) (key : String)
    (fs : FileState) : Option (Except Error α × FileState × List Event) :=
  modify_settings c false (getFunc sd key) fs

/-- The closure Settings::has_value passes to modify_settings. -/
def hasValueFunc (key : String) (map : JMap) : Option (Except Error Bool × JMap) :=
  some (Except.ok (mapContainsKey key map), map)

/-- Settings::has_value. -/
def has_value (c : JsonCodec) (key : String) (fs : FileState) :
    Option (Except Error Bool × FileState × List Event) :=
  modify_settings c false (hasValueFunc key) fs

/-- The closure Settings::set passes to modify_settings: serialize the value
(Type error on failure) and insert it under the key. -/
def setFunc {α : Type} (sd : Serde α) (key : String) (value : α) (map : JMap) :
    Option (Except Error Unit × JMap) :=
  match sd.toJson value with
  | Except.ok jsonValue => some (Except.ok (), mapInsert key jsonValue map)
  | Except.error e => some (Except.error (Error.typeError e), map)

/-- Settings::set. -/
def Settings.set {α : Type} (c : JsonCodec) (sd : Serde α) (key : String)
    (value : α) (fs : FileState) :
    Option (Except Error Unit × FileState × List Event) :=
  modify_settings c true (setFunc sd key value) fs

/-- The closure Settings::clear passes to modify_settings. -/
def clearFunc (key : String) (map : JMap) : Option (Except Error Unit × JMap) :=
  some (Except.ok (), (mapRemove key map).2)

/-- Settings::clear. -/
def clear (c : JsonCodec) (key : String) (fs : FileState) :
    Option (Except Error Unit × FileState × List Event) :=
  modify_settings c true (clearFunc key) fs

/-- The loop inside Settings::list_values: for each key collected up front,
map.remove(&key).unwrap(). `none` models the unwrap panic. -/
def listLoop : List String → JMap → Option (List (String × Json) × JMap)
  | [], m => some ([], m)
  | k :: ks, m =>
    let r := mapRemove k m
    match r.1 with
    | none => none
    | some v =>
      match listLoop ks r.2 with
      | none => none
      | some (acc, m2) => some ((k, v) :: acc, m2)

/-- The closure Settings::list_values passes to modify_settings, over
listLoop; the unwrap panic propagates as `none`. -/
def listValuesFunc (map : JMap) :
    Option (Except Error (List (String × Json)) × JMap) :=
  match listLoop (map.map Prod.fst) map with
  | none => none
  | some (res, m2) => some (Except.ok res, m2)

/-- Settings::list_values. -/
def list_values (c : JsonCodec) (fs : FileState) :
    Option (Except Error (List (String × Json)) × FileState × List Event) :=
  modify_settings c false listValuesFunc fs

/-- Settings::open, over the path's prior state (`none` when no file exists
there). Creating writes the literal two characters of an empty object and
leaves the cursor after them; opening an existing file leaves the cursor at
0 and does not look at the content. I/O failures (spec: IoError) cannot
occur in this in-memory file model. -/
def openSettings (prior : Option (List Char)) : Except Error FileState :=
  match prior with
  | none => Except.ok { content := "\x7b\x7d".data, pos := 2 }
  | some content => Except.ok { content := content, pos := 0 }

/-- The file state after a read-only pass of `modify_settings`: same content,
cursor at the end. -/
def afterRead (fs : FileState) : FileState :=
  { content := fs.content, pos := fs.content.length }

/-- The file state after `modify_settings` wrote map `m` back. -/
def writtenState (c : JsonCodec) (m : JMap) : FileState :=
  { content := c.pretty (Json.obj m), pos := (c.pretty (Json.obj m)).length }

/-- The trace of a pass with no write-back. -/
def readTrace : List Event := [Event.seekStart, Event.readToEnd]

/-- The trace of a pass that wrote `out` back. -/
def writeTrace (out : List Char) : List Event :=
  [Event.seekStart, Event.readToEnd, Event.seekStart, Event.setLen 0, Event.writeAll out]

/-! Characterization of the three branches of `modify_settings`. -/

theorem ms_parse_error {T : Type} (c : JsonCodec) (wb : Bool)
    (func : JMap → Option (Except Error T × JMap)) (fs : FileState) (e : String)
    (h : c.parse fs.content = Except.error e) :
    modify_settings c wb func fs
      = some (Except.error (Error.corrupted e), afterRead fs, readTrace) := by
  simp [modify_settings, seekStart, readToEnd, afterRead, readTrace, h]

theorem ms_not_obj {T : Type} (c : JsonCodec) (wb : Bool)
    (func : JMap → Option (Except Error T × JMap)) (fs : FileState) (j : Json)
    (h : c.parse fs.content = Except.ok j) (hobj : ∀ m, j ≠ Json.obj m) :
    modify_settings c wb func fs
      = some (Except.error (Error.corrupted rootErrorMsg), afterRead fs, readTrace) := by
  cases j with
  | obj m => exact absurd rfl (hobj m)
  | null => simp [modify_settings, seekStart, readToEnd, afterRead, readTrace, h]
  | bool b => simp [modify_settings, seekStart, readToEnd, afterRead, readTrace, h]
  | num n => simp [modify_settings, seekStart, readToEnd, afterRead, readTrace, h]
  | str s => simp [modify_settings, seekStart, readToEnd, afterRead, readTrace, h]
  | arr xs => simp [modify_settings, seekStart, readToEnd, afterRead, readTrace, h]

theorem ms_obj {T : Type} (c : JsonCodec) (wb : Bool)
    (func : JMap → Option (Except Error T × JMap)) (fs : FileState) (m : JMap)
    (r : Except Error T) (m2 : JMap)
    (h : c.parse fs.content = Except.ok (Json.obj m)) (hf : func m = some (r, m2)) :
    modify_settings c wb func fs
      = some (r,
          if wb && excOk r then
            (writtenState c m2, writeTrace (c.pretty (Json.obj m2)))
          else (afterRead fs, readTrace)) := by
  by_cases hc : wb = true ∧ excOk r = true
  · simp [modify_settings, seekStart, readToEnd, truncateZero, writeAll,
      afterRead, readTrace, writtenState, writeTrace, h, hf, hc]
  · simp [modify_settings, seekStart, readToEnd, truncateZero, writeAll,
      afterRead, readTrace, writtenState, writeTrace, h, hf, hc]

/-! Lemmas about the map operations. -/

theorem mapRemove_not_contains (key : String) :
    ∀ m : JMap, mapContainsKey key m = false → mapRemove key m = (none, m)
  | [], _ => rfl
  | (k, v) :: rest, h => by
    simp only [mapContainsKey, List.any_cons, Bool.or_eq_false_iff,
      beq_eq_false_iff_ne, ne_eq] at h
    simp only [mapRemove, if_neg h.1,
      mapRemove_not_contains key rest (by simpa [mapContainsKey] using h.2)]

theorem mapInsert_cons (key : String) (val : Json) (k : String) (v : Json)
    (rest : JMap) :
    mapInsert key val ((k, v) :: rest)
      = if key = k then (key, val) :: rest
        else if key < k then (key, val) :: (k, v) :: rest
        else (k, v) :: mapInsert key val rest := rfl

theorem mapRemove_insert_fst (key : String) (val : Json) :
    ∀ m : JMap, (mapRemove key (mapInsert key val m)).1 = some val
  | [] => by simp [mapInsert, mapRemove]
  | (k, v) :: rest => by
    rw [mapInsert_cons]
    by_cases h1 : key = k
    · rw [if_pos h1]
      simp [mapRemove]
    · rw [if_neg h1]
      by_cases h2 : key < k
      · rw [if_pos h2]
        simp [mapRemove]
      · have hk : ¬ k = key := fun h => h1 h.symm
        rw [if_neg h2]
        simp only [mapRemove, if_neg hk]
        exact mapRemove_insert_fst key val rest

theorem mem_keys_insert (key x : String) (val : Json) :
    ∀ m : JMap, x ∈ (mapInsert key val m).map Prod.fst → x = key ∨ x ∈ m.map Prod.fst
  | [] => by
    intro h
    simp only [mapInsert, List.map_cons, List.map_nil, List.mem_singleton] at h
    exact Or.inl h
  | (k, v) :: rest => by
    intro h
    rw [mapInsert_cons] at h
    by_cases h1 : key = k
    · rw [if_pos h1] at h
      simp only [List.map_cons, List.mem_cons] at h
      rcases h with h | h
      · exact Or.inl h
      · simp only [List.map_cons, List.mem_cons]
        exact Or.inr (Or.inr h)
    · rw [if_neg h1] at h
      by_cases h2 : key < k
      · rw [if_pos h2] at h
        simp only [List.map_cons, List.mem_cons] at h
        rcases h with h | h | h
        · exact Or.inl h
        · simp only [List.map_cons, List.mem_cons]
          exact Or.inr (Or.inl h)
        · simp only [List.map_cons, List.mem_cons]
          exact Or.inr (Or.inr h)
      · rw [if_neg h2] at h
        simp only [List.map_cons, List.mem_cons] at h
        rcases h with h | h
        · simp only [List.map_cons, List.mem_cons]
          exact Or.inr (Or.inl h)
        · rcases mem_keys_insert key x val rest h with h | h
          · exact Or.inl h
          · simp only [List.map_cons, List.mem_cons]
            exact Or.inr (Or.inr h)

theorem mapWF_insert (key : String) (val : Json) :
    ∀ m : JMap, mapWF m → mapWF (mapInsert key val m)
  | [], _ => by simp [mapWF, mapInsert]
  | (k, v) :: rest, h => by
    rw [mapWF, List.map_cons, List.pairwise_cons] at h
    rw [mapWF, mapInsert_cons]
    by_cases h1 : key = k
    · rw [if_pos h1]
      simp only [List.map_cons, List.pairwise_cons]
      subst h1
      exact h
    · rw [if_neg h1]
      by_cases h2 : key < k
      · rw [if_pos h2]
        simp only [List.map_cons, List.pairwise_cons]
        refine ⟨?_, h.1, h.2⟩
        intro a ha
        simp only [List.mem_cons] at ha
        rcases ha with ha | ha
        · exact ha ▸ h2
        · exact lt_trans h2 (h.1 a ha)
      · have hk : k < key := lt_of_le_of_ne (not_lt.mp h2) fun hh => h1 hh.symm
        rw [if_neg h2]
        simp only [List.map_cons, List.pairwise_cons]
        refine ⟨?_, mapWF_insert key val rest h.2⟩
        intro a ha
        rcases mem_keys_insert key a val rest ha with ha | ha
        · exact ha ▸ hk
        · exact h.1 a ha

theorem mapRemove_sublist (key : String) :
    ∀ m : JMap, ((mapRemove key m).2).Sublist m
  | [] => List.Sublist.refl []
  | (k, v) :: rest => by
    by_cases hk : k = key
    · simp only [mapRemove, if_pos hk]
      exact List.sublist_cons_self (k, v) rest
    · simp only [mapRemove, if_neg hk]
      exact List.Sublist.cons₂ (k, v) (mapRemove_sublist key rest)

theorem mapWF_remove (key : String) (m : JMap) (h : mapWF m) :
    mapWF (mapRemove key m).2 :=
  List.Pairwise.sublist (List.Sublist.map Prod.fst (mapRemove_sublist key m)) h

theorem not_contains_remove (key : String) :
    ∀ m : JMap, mapWF m → mapContainsKey key (mapRemove key m).2 = false
  | [], _ => rfl
  | (k, v) :: rest, h => by
    rw [mapWF, List.map_cons, List.pairwise_cons] at h
    by_cases hk : k = key
    · subst hk
      simp only [mapRemove, if_pos rfl]
      simp only [mapContainsKey, List.any_eq_false, beq_eq_false_iff_ne, ne_eq]
      intro p hp hpk
      have hlt := h.1 p.1 (List.mem_map_of_mem Prod.fst hp)
      have hpk2 : p.1 = k := by simpa using hpk
      rw [hpk2] at hlt
      exact lt_irrefl k hlt
    · simp only [mapRemove, if_neg hk]
      simp only [mapContainsKey, List.any_cons, Bool.or_eq_false_iff]
      constructor
      · simp only [beq_eq_false_iff_ne, ne_eq]
        exact hk
      · have := not_contains_remove key rest h.2
        simpa [mapContainsKey] using this

theorem listLoop_keys : ∀ m : JMap, listLoop (m.map Prod.fst) m = some (m, [])
  | [] => rfl
  | (k, v) :: rest => by
    simp [listLoop, mapRemove, listLoop_keys rest]

/-! A concrete codec satisfying the `JsonCodec` laws, used to evaluate the
statements on concrete inputs. The byte format serde_json produces is
irrelevant to the program (only the codec laws are relied upon), so this
instance uses a simple prefix code: unary integers and length-prefixed
strings, with a fuel-indexed decoder. -/

/-- Count the leading run of '1' characters. -/
def takeOnes : List Char → Nat × List Char
  | [] => (0, [])
  | c :: rest =>
    if c = '1' then
      let r := takeOnes rest
      (r.1 + 1, r.2)
    else (0, c :: rest)

/-- Unary encoding of an integer, ';'-terminated. -/
def encIntBody (n : Int) : List Char :=
  (if n < 0 then ['-'] else []) ++ List.replicate n.natAbs '1' ++ [';']

/-- Length-prefixed string encoding. -/
def encStr (s : String) : List Char :=
  's' :: (List.replicate s.length '1' ++ (';' :: s.data))

mutual
/-- Encode a JSON value. -/
def encVal : Json → List Char
  | Json.null => ['n']
  | Json.bool true => ['t']
  | Json.bool false => ['f']
  | Json.num n => 'i' :: encIntBody n
  | Json.str s => encStr s
  | Json.arr xs => 'a' :: (encItems xs ++ ['e'])
  | Json.obj m => 'o' :: (encEntries m ++ ['e'])
/-- Encode array elements in sequence. -/
def encItems : List Json → List Char
  | [] => []
  | x :: xs => encVal x ++ encItems xs
/-- Encode object entries in sequence. -/
def encEntries : List (String × Json) → List Char
  | [] => []
  | (k, v) :: m => encStr k ++ (encVal v ++ encEntries m)
end

/-- Decode an integer body. -/
def decIntBody : List Char → Option (Int × List Char)
  | [] => none
  | c :: rest =>
    if c = '-' then
      let r := takeOnes rest
      match r.2 with
      | ';' :: rest2 => some (-(r.1 : Int), rest2)
      | _ => none
    else
      let r := takeOnes (c :: rest)
      match r.2 with
      | ';' :: rest2 => some ((r.1 : Int), rest2)
      | _ => none

/-- Decode a length-prefixed string. -/
def decStr : List Char → Option (String × List Char)
  | [] => none
  | c :: rest =>
    if c = 's' then
      let r := takeOnes rest
      match r.2 with
      | ';' :: rest2 => some (String.mk (rest2.take r.1), rest2.drop r.1)
      | _ => none
    else none

mutual
/-- Decode a JSON value, with fuel bounding the recursion depth. -/
def decVal : Nat → List Char → Option (Json × List Char)
  | 0, _ => none
  | _ + 1, [] => none
  | fuel + 1, c :: rest =>
    if c = 'n' then some (Json.null, rest)
    else if c = 't' then some (Json.bool true, rest)
    else if c = 'f' then some (Json.bool false, rest)
    else if c = 'i' then
      match decIntBody rest with
      | some (n, rest2) => some (Json.num n, rest2)
      | none => none
    else if c = 's' then
      match decStr (c :: rest) with
      | some (s, rest2) => some (Json.str s, rest2)
      | none => none
    else if c = 'a' then
      match decItems fuel rest with
      | some (xs, rest2) => some (Json.arr xs, rest2)
      | none => none
    else if c = 'o' then
      match decEntries fuel rest with
      | some (m, rest2) => some (Json.obj m, rest2)
      | none => none
    else none
/-- Decode array elements up to the closing marker. -/
def decItems : Nat → List Char → Option (List Json × List Char)
  | 0, _ => none
  | _ + 1, [] => none
  | fuel + 1, c :: rest =>
    if c = 'e' then some ([], rest)
    else
      match decVal fuel (c :: rest) with
      | none => none
      | some (j, rest2) =>
        match decItems fuel rest2 with
        | none => none
        | some (xs, rest3) => some (j :: xs, rest3)
/-- Decode object entries up to the closing marker. -/
def decEntries : Nat → List Char → Option (List (String × Json) × List Char)
  | 0, _ => none
  | _ + 1, [] => none
  | fuel + 1, c :: rest =>
    if c = 'e' then some ([], rest)
    else
      match decStr (c :: rest) with
      | none => none
      | some (k, rest2) =>
        match decVal fuel rest2 with
        | none => none
        | some (v, rest3) =>
          match decEntries fuel rest3 with
          | none => none
          | some (m, rest4) => some ((k, v) :: m, rest4)
end

theorem takeOnes_replicate (n : Nat) (t : List Char) :
    takeOnes (List.replicate n '1' ++ ';' :: t) = (n, ';' :: t) := by
  induction n with
  | zero => simp [takeOnes]
  | succ k ih => simp [List.replicate_succ, takeOnes, ih]

theorem decIntBody_enc (n : Int) (t : List Char) :
    decIntBody (encIntBody n ++ t) = some (n, t) := by
  by_cases hn : n < 0
  · have h1 : encIntBody n ++ t
        = '-' :: (List.replicate n.natAbs '1' ++ ';' :: t) := by
      simp [encIntBody, hn]
    rw [h1]
    simp [decIntBody, takeOnes_replicate]
    rw [abs_of_neg hn]
    omega
  · have h1 : encIntBody n ++ t = List.replicate n.natAbs '1' ++ ';' :: t := by
      simp [encIntBody, hn]
    rw [h1]
    cases hab : n.natAbs with
    | zero =>
      have h2 : n = 0 := by omega
      simp [decIntBody, takeOnes, h2]
    | succ k =>
      have h2 : ((k : Int) + 1) = n := by omega
      have h3 : List.replicate (k + 1) '1' ++ ';' :: t
          = '1' :: (List.replicate k '1' ++ ';' :: t) := by
        simp [List.replicate_succ]
      rw [h3]
      simp [decIntBody, takeOnes, takeOnes_replicate, h2]

theorem decStr_enc (s : String) (t : List Char) :
    decStr (encStr s ++ t) = some (s, t) := by
  have h1 : encStr s ++ t
      = 's' :: (List.replicate s.length '1' ++ ';' :: (s.data ++ t)) := by
    simp [encStr]
  have hlen : s.length = s.data.length := rfl
  rw [h1]
  simp only [decStr, if_pos rfl, takeOnes_replicate]
  rw [hlen, List.take_left, List.drop_left]
  simp

theorem encVal_head (j : Json) :
    ∃ c t, encVal j = c :: t ∧ c ≠ 'e' ∧ c ≠ Char.ofNat 123 := by
  cases j with
  | null => exact ⟨'n', _, rfl, by decide, by decide⟩
  | bool b => cases b with
    | true => exact ⟨'t', _, rfl, by decide, by decide⟩
    | false => exact ⟨'f', _, rfl, by decide, by decide⟩
  | num n => exact ⟨'i', _, rfl, by decide, by decide⟩
  | str s => exact ⟨'s', _, rfl, by decide, by decide⟩
  | arr xs => exact ⟨'a', _, rfl, by decide, by decide⟩
  | obj m => exact ⟨'o', _, rfl, by decide, by decide⟩

theorem encVal_length_pos (j : Json) : 1 ≤ (encVal j).length := by
  obtain ⟨c, t, h, -, -⟩ := encVal_head j
  simp [h]

mutual
theorem decVal_enc : ∀ (j : Json) (t : List Char) (fuel : Nat),
    (encVal j).length ≤ fuel → decVal fuel (encVal j ++ t) = some (j, t)
  | Json.null, t, fuel, h => by
    cases fuel with
    | zero => simp [encVal] at h
    | succ f => simp [encVal, decVal]
  | Json.bool true, t, fuel, h => by
    cases fuel with
    | zero => simp [encVal] at h
    | succ f => simp [encVal, decVal]
  | Json.bool false, t, fuel, h => by
    cases fuel with
    | zero => simp [encVal] at h
    | succ f => simp [encVal, decVal]
  | Json.num n, t, fuel, h => by
    cases fuel with
    | zero => simp [encVal] at h
    | succ f =>
      have he : encVal (Json.num n) ++ t = 'i' :: (encIntBody n ++ t) := by
        simp [encVal]
      rw [he]
      simp [decVal, decIntBody_enc]
  | Json.str s, t, fuel, h => by
    cases fuel with
    | zero =>
      have := encVal_length_pos (Json.str s)
      omega
    | succ f =>
      have he : encStr s ++ t
          = 's' :: (List.replicate s.length '1' ++ ';' :: (s.data ++ t)) := by
        simp [encStr]
      have hd := decStr_enc s t
      rw [he] at hd
      show decVal (f + 1) (encStr s ++ t) = some (Json.str s, t)
      rw [he]
      simp [decVal, hd]
  | Json.arr xs, t, fuel, h => by
    cases fuel with
    | zero => simp [encVal] at h
    | succ f =>
      have he : encVal (Json.arr xs) ++ t = 'a' :: (encItems xs ++ 'e' :: t) := by
        simp [encVal]
      have hl : (encItems xs).length + 1 ≤ f := by
        simp [encVal] at h
        omega
      rw [he]
      simp [decVal, decItems_enc xs t f hl]
  | Json.obj m, t, fuel, h => by
    cases fuel with
    | zero => simp [encVal] at h
    | succ f =>
      have he : encVal (Json.obj m) ++ t = 'o' :: (encEntries m ++ 'e' :: t) := by
        simp [encVal]
      have hl : (encEntries m).length + 1 ≤ f := by
        simp [encVal] at h
        omega
      rw [he]
      simp [decVal, decEntries_enc m t f hl]
termination_by j _ _ _ => sizeOf j
theorem decItems_enc : ∀ (xs : List Json) (t : List Char) (fuel : Nat),
    (encItems xs).length + 1 ≤ fuel →
    decItems fuel (encItems xs ++ 'e' :: t) = some (xs, t)
  | [], t, fuel, h => by
    cases fuel with
    | zero => omega
    | succ f => simp [encItems, decItems]
  | x :: xs, t, fuel, h => by
    cases fuel with
    | zero => omega
    | succ f =>
      obtain ⟨c, tl, hx, hce, -⟩ := encVal_head x
      have hlx := encVal_length_pos x
      simp only [encItems, List.length_append] at h
      have h1 : (encVal x).length ≤ f := by omega
      have h2 : (encItems xs).length + 1 ≤ f := by omega
      have hv := decVal_enc x (encItems xs ++ 'e' :: t) f h1
      have hi := decItems_enc xs t f h2
      show decItems (f + 1) ((encVal x ++ encItems xs) ++ 'e' :: t) = some (x :: xs, t)
      rw [List.append_assoc, hx, List.cons_append]
      rw [hx, List.cons_append] at hv
      simp only [decItems, if_neg hce]
      simp [hv, hi]
termination_by xs _ _ _ => sizeOf xs
theorem decEntries_enc : ∀ (m : List (String × Json)) (t : List Char) (fuel : Nat),
    (encEntries m).length + 1 ≤ fuel →
    decEntries fuel (encEntries m ++ 'e' :: t) = some (m, t)
  | [], t, fuel, h => by
    cases fuel with
    | zero => omega
    | succ f => simp [encEntries, decEntries]
  | (k, v) :: m, t, fuel, h => by
    cases fuel with
    | zero => omega
    | succ f =>
      have hs : encStr k = 's' :: (List.replicate k.length '1' ++ ';' :: k.data) := rfl
      have hlv := encVal_length_pos v
      simp only [encEntries, List.length_append] at h
      have hlk : 1 ≤ (encStr k).length := by
        rw [hs]
        simp
      have h1 : (encVal v).length ≤ f := by omega
      have h2 : (encEntries m).length + 1 ≤ f := by omega
      have hstr := decStr_enc k (encVal v ++ (encEntries m ++ 'e' :: t))
      have hv := decVal_enc v (encEntries m ++ 'e' :: t) f h1
      have hi := decEntries_enc m t f h2
      show decEntries (f + 1) ((encStr k ++ (encVal v ++ encEntries m)) ++ 'e' :: t)
          = some ((k, v) :: m, t)
      have harr : (encStr k ++ (encVal v ++ encEntries m)) ++ 'e' :: t
          = encStr k ++ (encVal v ++ (encEntries m ++ 'e' :: t)) := by
        simp [List.append_assoc]
      rw [harr, hs, List.cons_append]
      rw [hs, List.cons_append] at hstr
      simp only [List.cons_append, List.append_assoc] at hstr
      simp only [decEntries, if_neg (by decide : ¬('s' : Char) = 'e')]
      simp [hstr, hv, hi]
termination_by m _ _ _ => sizeOf m
end

/-- The concrete parser: accept the literal empty object, otherwise decode
with enough fuel and require the input to be fully consumed. -/
def modelParse (s : List Char) : Except String Json :=
  if s = "\x7b\x7d".data then Except.ok (Json.obj [])
  else
    match decVal (s.length + 1) s with
    | some (j, []) => Except.ok j
    | some (_, _ :: _) => Except.error "trailing data"
    | none => Except.error "invalid data"

theorem modelParse_enc (j : Json) : modelParse (encVal j) = Except.ok j := by
  obtain ⟨c, tl, hx, hce, hcb⟩ := encVal_head j
  have hne : encVal j ≠ "\x7b\x7d".data := by
    rw [hx]
    intro hcontra
    have hdata : "\x7b\x7d".data = [Char.ofNat 123, Char.ofNat 125] := by decide
    rw [hdata] at hcontra
    injection hcontra with h1 h2
    exact hcb h1
  have hd := decVal_enc j [] ((encVal j).length + 1) (by omega)
  rw [List.append_nil] at hd
  simp only [modelParse, if_neg hne, hd]

theorem modelParse_nil : modelParse [] = Except.error "invalid data" := by
  simp only [modelParse]
  rw [if_neg (by decide)]
  rfl

/-- The concrete codec instance satisfying the serde_json contract. -/
def modelCodec : JsonCodec where
  pretty := encVal
  parse := modelParse
  emptyMsg := "invalid data"
  roundtrip := modelParse_enc
  parse_empty := modelParse_nil
  parse_init := by
    simp [modelParse]

/-- Int with its serde conversion: a supported serializable value type. -/
def intSerde : Serde Int where
  toJson n := Except.ok (Json.num n)
  fromJson j :=
    match j with
    | Json.num n => Except.ok n
    | _ => Except.error "invalid type"
  roundtrip := by
    intro a j h
    injection h with h1
    rw [← h1]

/-- A value whose serialization fails, exercising the Type-error branch of
set (serde to_value fails, e.g. on a map with non-string keys). -/
def badSerde : Serde Unit where
  toJson _ := Except.error "key must be a string"
  fromJson _ := Except.error "key must be a string"
  roundtrip := by
    intro a j h
    exact Except.noConfusion h

/-! Specifications of the public accessors at a well-parsed object state. -/

theorem mapRemove_fst_none (key : String) (m : JMap)
    (h : mapContainsKey key m = false) : (mapRemove key m).1 = none := by
  rw [mapRemove_not_contains key m h]

theorem get_found {α : Type} (c : JsonCodec) (sd : Serde α) (key : String)
    (fs : FileState) (m : JMap) (jv : Json) (v : α)
    (hparse : c.parse fs.content = Except.ok (Json.obj m))
    (hrem : (mapRemove key m).1 = some jv)
    (hfrom : sd.fromJson jv = Except.ok v) :
    Settings.get c sd key fs = some (Except.ok v, afterRead fs, readTrace) := by
  unfold Settings.get
  have hf : getFunc sd key m = some (Except.ok v, (mapRemove key m).2) := by
    simp [getFunc, hrem, hfrom]
  have h := ms_obj c false (getFunc sd key) fs m (Except.ok v) (mapRemove key m).2
    hparse hf
  simpa [excOk] using h

theorem get_notfound {α : Type} (c : JsonCodec) (sd : Serde α) (key : String)
    (fs : FileState) (m : JMap)
    (hparse : c.parse fs.content = Except.ok (Json.obj m))
    (hrem : (mapRemove key m).1 = none) :
    Settings.get c sd key fs
      = some (Except.error Error.notFound, afterRead fs, readTrace) := by
  unfold Settings.get
  have hf : getFunc sd key m = some (Except.error Error.notFound, (mapRemove key m).2) := by
    simp [getFunc, hrem]
  have h := ms_obj c false (getFunc sd key) fs m (Except.error Error.notFound)
    (mapRemove key m).2 hparse hf
  simpa [excOk] using h

theorem has_value_spec (c : JsonCodec) (key : String) (fs : FileState) (m : JMap)
    (hparse : c.parse fs.content = Except.ok (Json.obj m)) :
    has_value c key fs
      = some (Except.ok (mapContainsKey key m), afterRead fs, readTrace) := by
  unfold has_value
  have hf : hasValueFunc key m = some (Except.ok (mapContainsKey key m), m) := rfl
  have h := ms_obj c false (hasValueFunc key) fs m (Except.ok (mapContainsKey key m))
    m hparse hf
  simpa [excOk] using h

theorem set_ok {α : Type} (c : JsonCodec) (sd : Serde α) (key : String) (v : α)
    (jv : Json) (fs : FileState) (m : JMap)
    (hparse : c.parse fs.content = Except.ok (Json.obj m))
    (hser : sd.toJson v = Except.ok jv) :
    Settings.set c sd key v fs
      = some (Except.ok (), writtenState c (mapInsert key jv m),
          writeTrace (c.pretty (Json.obj (mapInsert key jv m)))) := by
  unfold Settings.set
  have hf : setFunc sd key v m = some (Except.ok (), mapInsert key jv m) := by
    simp [setFunc, hser]
  have h := ms_obj c true (setFunc sd key v) fs m (Except.ok ()) (mapInsert key jv m)
    hparse hf
  simpa [excOk] using h

theorem set_err {α : Type} (c : JsonCodec) (sd : Serde α) (key : String) (v : α)
    (msg : String) (fs : FileState) (m : JMap)
    (hparse : c.parse fs.content = Except.ok (Json.obj m))
    (hser : sd.toJson v = Except.error msg) :
    Settings.set c sd key v fs
      = some (Except.error (Error.typeError msg), afterRead fs, readTrace) := by
  unfold Settings.set
  have hf : setFunc sd key v m = some (Except.error (Error.typeError msg), m) := by
    simp [setFunc, hser]
  have h := ms_obj c true (setFunc sd key v) fs m (Except.error (Error.typeError msg))
    m hparse hf
  simpa [excOk] using h

theorem clear_spec (c : JsonCodec) (key : String) (fs : FileState) (m : JMap)
    (hparse : c.parse fs.content = Except.ok (Json.obj m)) :
    clear c key fs
      = some (Except.ok (), writtenState c (mapRemove key m).2,
          writeTrace (c.pretty (Json.obj (mapRemove key m).2))) := by
  unfold clear
  have hf : clearFunc key m = some (Except.ok (), (mapRemove key m).2) := rfl
  have h := ms_obj c true (clearFunc key) fs m (Except.ok ()) (mapRemove key m).2
    hparse hf
  simpa [excOk] using h

theorem list_values_spec (c : JsonCodec) (fs : FileState) (m : JMap)
    (hparse : c.parse fs.content = Except.ok (Json.obj m)) :
    list_values c fs = some (Except.ok m, afterRead fs, readTrace) := by
  unfold list_values
  have hf : listValuesFunc m = some (Except.ok m, ([] : JMap)) := by
    simp [listValuesFunc, listLoop_keys m]
  have h := ms_obj c false listValuesFunc fs m (Except.ok m) ([] : JMap) hparse hf
  simpa [excOk] using h

theorem ms_panic {T : Type} (c : JsonCodec) (wb : Bool)
    (func : JMap → Option (Except Error T × JMap)) (fs : FileState) (m : JMap)
    (hparse : c.parse fs.content = Except.ok (Json.obj m)) (hf : func m = none) :
    modify_settings c wb func fs = none := by
  simp [modify_settings, seekStart, readToEnd, hparse, hf]

theorem ms_false_content {T : Type} (c : JsonCodec)
    (func : JMap → Option (Except Error T × JMap)) (fs : FileState)
    (r : Except Error T) (fs1 : FileState) (tr : List Event)
    (h : modify_settings c false func fs = some (r, fs1, tr)) :
    fs1.content = fs.content := by
  cases hp : c.parse fs.content with
  | error e =>
    rw [ms_parse_error c false func fs e hp] at h
    simp only [Option.some.injEq, Prod.mk.injEq] at h
    rw [← h.2.1]
    rfl
  | ok j =>
    by_cases hobj : ∃ mm, j = Json.obj mm
    · obtain ⟨mm, rfl⟩ := hobj
      cases hfm : func mm with
      | none =>
        rw [ms_panic c false func fs mm hp hfm] at h
        exact Option.noConfusion h
      | some p =>
        rw [ms_obj c false func fs mm p.1 p.2 hp (by rw [hfm])] at h
        simp only [Bool.false_and, Bool.false_eq_true, if_false,
          Option.some.injEq, Prod.mk.injEq] at h
        rw [← h.2.1]
        rfl
    · have hno : ∀ mm, j ≠ Json.obj mm := by
        intro mm hcontra
        exact hobj ⟨mm, hcontra⟩
      rw [ms_not_obj c false func fs j hp hno] at h
      simp only [Option.some.injEq, Prod.mk.injEq] at h
      rw [← h.2.1]
      rfl

/-! The claims. -/

/-- C1: the internal transaction primitive (modify_settings), for every
operation, follows these steps in order: seek to byte offset 0, read the
entire file content, parse it as JSON (failing with a Corrupted error if
parsing fails), require the root to be a JSON object (failing with a
Corrupted error otherwise), invoke the caller-supplied function on the
parsed map, and, only when write_back is true and the function succeeded,
seek to offset 0, truncate the file to zero length, serialize the map as
pretty-printed JSON, and write it in full; the function's result is
returned to the caller. The returned traces list the file operations in
the order they happen. -/
theorem c1_modify_settings_steps {T : Type} (c : JsonCodec) (write_back : Bool)
    (func : JMap → Option (Except Error T × JMap)) (fs : FileState) :
    (∀ e, c.parse fs.content = Except.error e →
      modify_settings c write_back func fs
        = some (Except.error (Error.corrupted e), afterRead fs, readTrace))
    ∧ (∀ j, c.parse fs.content = Except.ok j → (∀ m, j ≠ Json.obj m) →
      modify_settings c write_back func fs
        = some (Except.error (Error.corrupted rootErrorMsg), afterRead fs, readTrace))
    ∧ (∀ m r m2, c.parse fs.content = Except.ok (Json.obj m) → func m = some (r, m2) →
      modify_settings c write_back func fs
        = some (r,
            if write_back && excOk r then
              (writtenState c m2, writeTrace (c.pretty (Json.obj m2)))
            else (afterRead fs, readTrace))) :=
  ⟨fun e h => ms_parse_error c write_back func fs e h,
   fun j h hobj => ms_not_obj c write_back func fs j h hobj,
   fun m r m2 h hf => ms_obj c write_back func fs m r m2 h hf⟩

/-- Witness for C1: a successful write-back pass on the freshly created file. -/
theorem c1_witness :
    modify_settings modelCodec true
        (fun m => some ((Except.ok 0 : Except Error Nat), m)) ⟨"\x7b\x7d".data, 0⟩
      = some (Except.ok 0, writtenState modelCodec [],
          writeTrace (modelCodec.pretty (Json.obj []))) := by
  have h := (c1_modify_settings_steps modelCodec true
    (fun m => some ((Except.ok 0 : Except Error Nat), m)) ⟨"\x7b\x7d".data, 0⟩).2.2
    [] (Except.ok 0) [] rfl rfl
  simpa [excOk] using h

/-- C3: for every mutating operation, if the caller-supplied function fails,
no write-back occurs: the on-disk document is unchanged and the error is
returned; in particular set with a value that fails to serialize returns a
Type error and writes nothing. -/
theorem c3_error_no_writeback {T : Type} (c : JsonCodec)
    (func : JMap → Option (Except Error T × JMap)) (fs : FileState) (m : JMap)
    (e : Error) (m2 : JMap)
    (hparse : c.parse fs.content = Except.ok (Json.obj m))
    (hf : func m = some (Except.error e, m2)) :
    modify_settings c true func fs = some (Except.error e, afterRead fs, readTrace)
    ∧ ∀ (α : Type) (sd : Serde α) (key : String) (v : α) (msg : String),
        sd.toJson v = Except.error msg →
        Settings.set c sd key v fs
          = some (Except.error (Error.typeError msg), afterRead fs, readTrace) := by
  constructor
  · have h := ms_obj c true func fs m (Except.error e) m2 hparse hf
    simpa [excOk] using h
  · intro α sd key v msg hser
    exact set_err c sd key v msg fs m hparse hser

/-- Witness for C3: a failing function under write_back, and a set with a
value whose serialization fails, both leave the fresh file untouched. -/
theorem c3_witness :
    modify_settings modelCodec true
        (fun m => some ((Except.error Error.notFound : Except Error Unit), m))
        ⟨"\x7b\x7d".data, 0⟩
      = some (Except.error Error.notFound, afterRead ⟨"\x7b\x7d".data, 0⟩, readTrace)
    ∧ Settings.set modelCodec badSerde "k" () ⟨"\x7b\x7d".data, 0⟩
      = some (Except.error (Error.typeError "key must be a string"),
          afterRead ⟨"\x7b\x7d".data, 0⟩, readTrace) := by
  have h := c3_error_no_writeback modelCodec
    (fun m => some ((Except.error Error.notFound : Except Error Unit), m))
    ⟨"\x7b\x7d".data, 0⟩ [] Error.notFound [] rfl rfl
  exact ⟨h.1, h.2 Unit badSerde "k" () "key must be a string" rfl⟩

/-- C7: the read-only operations get, has_value and list_values never modify
the persisted document: whenever they return, the file content is exactly
what it was before the call, whatever the result, even though get removes
the looked-up entry from the transient in-memory map. -/
theorem c7_readonly_preserves_file (c : JsonCodec) (fs : FileState) :
    (∀ (T : Type) (func : JMap → Option (Except Error T × JMap)) r fs1 tr,
       modify_settings c false func fs = some (r, fs1, tr) → fs1.content = fs.content)
    ∧ (∀ (α : Type) (sd : Serde α) key r fs1 tr,
       Settings.get c sd key fs = some (r, fs1, tr) → fs1.content = fs.content)
    ∧ (∀ key r fs1 tr,
       has_value c key fs = some (r, fs1, tr) → fs1.content = fs.content)
    ∧ (∀ r fs1 tr,
       list_values c fs = some (r, fs1, tr) → fs1.content = fs.content) := by
  refine ⟨?_, ?_, ?_, ?_⟩
  · intro T func r fs1 tr h
    exact ms_false_content c func fs r fs1 tr h
  · intro α sd key r fs1 tr h
    exact ms_false_content c (getFunc sd key) fs r fs1 tr h
  · intro key r fs1 tr h
    exact ms_false_content c (hasValueFunc key) fs r fs1 tr h
  · intro r fs1 tr h
    exact ms_false_content c listValuesFunc fs r fs1 tr h

/-- Witness for C7: a concrete has_value call returns the file with the same
content the store started from. -/
theorem c7_witness :
    (FileState.mk "\x7b\x7d".data 2).content = (FileState.mk "\x7b\x7d".data 0).content :=
  (c7_readonly_preserves_file modelCodec ⟨"\x7b\x7d".data, 0⟩).2.2.1 "a"
    (Except.ok false) ⟨"\x7b\x7d".data, 2⟩ readTrace rfl

/-- C2: for every key K and every value v of a supported serializable type,
set(K, v) followed by get(K) on the same store succeeds and returns a value
equal to v. -/
theorem c2_set_get_roundtrip {α : Type} (c : JsonCodec) (sd : Serde α)
    (key : String) (v : α) (jv : Json) (fs : FileState) (m : JMap)
    (hparse : c.parse fs.content = Except.ok (Json.obj m))
    (hser : sd.toJson v = Except.ok jv) :
    Settings.set c sd key v fs
      = some (Except.ok (), writtenState c (mapInsert key jv m),
          writeTrace (c.pretty (Json.obj (mapInsert key jv m))))
    ∧ Settings.get c sd key (writtenState c (mapInsert key jv m))
      = some (Except.ok v, afterRead (writtenState c (mapInsert key jv m)),
          readTrace) := by
  constructor
  · exact set_ok c sd key v jv fs m hparse hser
  · have hp2 : c.parse (writtenState c (mapInsert key jv m)).content
        = Except.ok (Json.obj (mapInsert key jv m)) :=
      c.roundtrip (Json.obj (mapInsert key jv m))
    exact get_found c sd key _ (mapInsert key jv m) jv v hp2
      (mapRemove_insert_fst key jv m) (sd.roundtrip v jv hser)

/-- Witness for C2: set "a" to 5 on the fresh store, then get "a" back. -/
theorem c2_witness :
    Settings.set modelCodec intSerde "a" 5 ⟨"\x7b\x7d".data, 0⟩
      = some (Except.ok (), writtenState modelCodec (mapInsert "a" (Json.num 5) []),
          writeTrace (modelCodec.pretty (Json.obj (mapInsert "a" (Json.num 5) []))))
    ∧ Settings.get modelCodec intSerde "a"
        (writtenState modelCodec (mapInsert "a" (Json.num 5) []))
      = some (Except.ok 5,
          afterRead (writtenState modelCodec (mapInsert "a" (Json.num 5) [])),
          readTrace) :=
  c2_set_get_roundtrip modelCodec intSerde "a" 5 (Json.num 5) ⟨"\x7b\x7d".data, 0⟩ []
    rfl rfl

/-- C4: opening a store at a path with no existing file creates the file
with the two-character content of the empty JSON object, that content
parses as the empty document, and the returned handle is immediately
usable: the first accessor call succeeds (has_value returns false for any
key). -/
theorem c4_open_creates_usable (c : JsonCodec) (key : String) :
    openSettings none = Except.ok ⟨"\x7b\x7d".data, 2⟩
    ∧ c.parse ("\x7b\x7d".data) = Except.ok (Json.obj [])
    ∧ has_value c key ⟨"\x7b\x7d".data, 2⟩
      = some (Except.ok false, afterRead ⟨"\x7b\x7d".data, 2⟩, readTrace) := by
  refine ⟨rfl, c.parse_init, ?_⟩
  have h := has_value_spec c key ⟨"\x7b\x7d".data, 2⟩ [] c.parse_init
  simpa [mapContainsKey] using h

/-- Witness for C4 at the concrete codec. -/
theorem c4_witness :
    openSettings none = Except.ok ⟨"\x7b\x7d".data, 2⟩
    ∧ modelCodec.parse ("\x7b\x7d".data) = Except.ok (Json.obj [])
    ∧ has_value modelCodec "a" ⟨"\x7b\x7d".data, 2⟩
      = some (Except.ok false, afterRead ⟨"\x7b\x7d".data, 2⟩, readTrace) :=
  c4_open_creates_usable modelCodec "a"

/-- C5: for a file whose content parses as JSON with a non-object root,
opening performs no validation and succeeds, and every accessor pass on the
opened store fails with a Corrupted error whose message states the root
must be an object (verbatim from the source). -/
theorem c5_non_object_root (c : JsonCodec) (content : List Char) (j : Json)
    (hparse : c.parse content = Except.ok j) (hobj : ∀ m, j ≠ Json.obj m) :
    openSettings (some content) = Except.ok ⟨content, 0⟩
    ∧ (∀ (T : Type) (wb : Bool) (func : JMap → Option (Except Error T × JMap))
         (pos : Nat),
        modify_settings c wb func ⟨content, pos⟩
          = some (Except.error (Error.corrupted rootErrorMsg),
              afterRead ⟨content, pos⟩, readTrace))
    ∧ (∀ key, has_value c key ⟨content, 0⟩
        = some (Except.error (Error.corrupted rootErrorMsg),
            afterRead ⟨content, 0⟩, readTrace)) := by
  refine ⟨rfl, ?_, ?_⟩
  · intro T wb func pos
    exact ms_not_obj c wb func ⟨content, pos⟩ j hparse hobj
  · intro key
    exact ms_not_obj c false (hasValueFunc key) ⟨content, 0⟩ j hparse hobj

/-- Witness for C5: a file holding a serialized scalar. -/
theorem c5_witness :
    openSettings (some (encVal (Json.num 7))) = Except.ok ⟨encVal (Json.num 7), 0⟩
    ∧ (∀ (T : Type) (wb : Bool) (func : JMap → Option (Except Error T × JMap))
         (pos : Nat),
        modify_settings modelCodec wb func ⟨encVal (Json.num 7), pos⟩
          = some (Except.error (Error.corrupted rootErrorMsg),
              afterRead ⟨encVal (Json.num 7), pos⟩, readTrace))
    ∧ (∀ key, has_value modelCodec key ⟨encVal (Json.num 7), 0⟩
        = some (Except.error (Error.corrupted rootErrorMsg),
            afterRead ⟨encVal (Json.num 7), 0⟩, readTrace)) :=
  c5_non_object_root modelCodec (encVal (Json.num 7)) (Json.num 7) rfl
    (fun _ h => Json.noConfusion h)

/-- C6: clear on a key not present in the document succeeds without error
and leaves the document unchanged (the rewritten bytes parse back to the
same map); and clear is idempotent: clearing the same key twice produces
exactly the file state one clear produces. -/
theorem c6_clear_absent_idempotent (c : JsonCodec) (key : String) (fs : FileState)
    (m : JMap) (hparse : c.parse fs.content = Except.ok (Json.obj m))
    (hwf : mapWF m) :
    (mapContainsKey key m = false →
      clear c key fs
        = some (Except.ok (), writtenState c m, writeTrace (c.pretty (Json.obj m)))
      ∧ c.parse (writtenState c m).content = Except.ok (Json.obj m))
    ∧ (clear c key fs
        = some (Except.ok (), writtenState c (mapRemove key m).2,
            writeTrace (c.pretty (Json.obj (mapRemove key m).2)))
      ∧ clear c key (writtenState c (mapRemove key m).2)
        = some (Except.ok (), writtenState c (mapRemove key m).2,
            writeTrace (c.pretty (Json.obj (mapRemove key m).2)))) := by
  constructor
  · intro habs
    have hrm : mapRemove key m = (none, m) := mapRemove_not_contains key m habs
    have h := clear_spec c key fs m hparse
    rw [hrm] at h
    exact ⟨h, c.roundtrip (Json.obj m)⟩
  constructor
  · exact clear_spec c key fs m hparse
  · have hp2 : c.parse (writtenState c (mapRemove key m).2).content
        = Except.ok (Json.obj (mapRemove key m).2) :=
      c.roundtrip (Json.obj (mapRemove key m).2)
    have h := clear_spec c key (writtenState c (mapRemove key m).2)
      (mapRemove key m).2 hp2
    have habs2 : mapContainsKey key (mapRemove key m).2 = false :=
      not_contains_remove key m hwf
    rw [mapRemove_not_contains key (mapRemove key m).2 habs2] at h
    exact h

/-- Witness for C6: two consecutive clears of an absent key on the fresh
store give the same resulting file state. -/
theorem c6_witness :
    clear modelCodec "a" ⟨"\x7b\x7d".data, 0⟩
      = some (Except.ok (), writtenState modelCodec (mapRemove "a" []).2,
          writeTrace (modelCodec.pretty (Json.obj (mapRemove "a" []).2)))
    ∧ clear modelCodec "a" (writtenState modelCodec (mapRemove "a" []).2)
      = some (Except.ok (), writtenState modelCodec (mapRemove "a" []).2,
          writeTrace (modelCodec.pretty (Json.obj (mapRemove "a" []).2))) :=
  (c6_clear_absent_idempotent modelCodec "a" ⟨"\x7b\x7d".data, 0⟩ [] rfl
    (by simp [mapWF])).2

/-- C8: get on a key absent from the document (never written, or written
and then cleared) fails with NotFound, while has_value never fails due to
key absence and returns false; the written-then-cleared chain is spelled
out: after set(key, v) then clear(key), get(key) fails with NotFound. -/
theorem c8_get_absent_notfound {α : Type} (c : JsonCodec) (sd : Serde α)
    (key : String) (fs : FileState) (m : JMap)
    (hparse : c.parse fs.content = Except.ok (Json.obj m))
    (habs : mapContainsKey key m = false) :
    Settings.get c sd key fs
      = some (Except.error Error.notFound, afterRead fs, readTrace)
    ∧ has_value c key fs = some (Except.ok false, afterRead fs, readTrace)
    ∧ ∀ (v : α) (jv : Json), sd.toJson v = Except.ok jv → mapWF m →
        Settings.set c sd key v fs
          = some (Except.ok (), writtenState c (mapInsert key jv m),
              writeTrace (c.pretty (Json.obj (mapInsert key jv m))))
        ∧ clear c key (writtenState c (mapInsert key jv m))
          = some (Except.ok (),
              writtenState c (mapRemove key (mapInsert key jv m)).2,
              writeTrace (c.pretty (Json.obj (mapRemove key (mapInsert key jv m)).2)))
        ∧ Settings.get c sd key
            (writtenState c (mapRemove key (mapInsert key jv m)).2)
          = some (Except.error Error.notFound,
              afterRead (writtenState c (mapRemove key (mapInsert key jv m)).2),
              readTrace) := by
  refine ⟨?_, ?_, ?_⟩
  · exact get_notfound c sd key fs m hparse (mapRemove_fst_none key m habs)
  · have h := has_value_spec c key fs m hparse
    rw [habs] at h
    exact h
  · intro v jv hser hwf
    refine ⟨set_ok c sd key v jv fs m hparse hser, ?_, ?_⟩
    · exact clear_spec c key _ (mapInsert key jv m)
        (c.roundtrip (Json.obj (mapInsert key jv m)))
    · have hwf2 : mapWF (mapInsert key jv m) := mapWF_insert key jv m hwf
      have habs2 : mapContainsKey key (mapRemove key (mapInsert key jv m)).2 = false :=
        not_contains_remove key (mapInsert key jv m) hwf2
      exact get_notfound c sd key _ (mapRemove key (mapInsert key jv m)).2
        (c.roundtrip (Json.obj (mapRemove key (mapInsert key jv m)).2))
        (mapRemove_fst_none key _ habs2)

/-- Witness for C8: get of a never-written key on the fresh store. -/
theorem c8_witness :
    Settings.get modelCodec intSerde "a" ⟨"\x7b\x7d".data, 0⟩
      = some (Except.error Error.notFound, afterRead ⟨"\x7b\x7d".data, 0⟩, readTrace) :=
  (c8_get_absent_notfound modelCodec intSerde "a" ⟨"\x7b\x7d".data, 0⟩ [] rfl rfl).1

/-- C9: on a zero-byte backing file every accessor call fails with a
Corrupted error carrying the parser's empty-input message: an empty file is
never treated as an empty document; only the file containing the literal
empty object is (there has_value succeeds). -/
theorem c9_empty_file_corrupted {α : Type} (c : JsonCodec) (sd : Serde α)
    (key : String) (v : α) (pos : Nat) :
    Settings.get c sd key ⟨[], pos⟩
      = some (Except.error (Error.corrupted c.emptyMsg), afterRead ⟨[], pos⟩, readTrace)
    ∧ has_value c key ⟨[], pos⟩
      = some (Except.error (Error.corrupted c.emptyMsg), afterRead ⟨[], pos⟩, readTrace)
    ∧ Settings.set c sd key v ⟨[], pos⟩
      = some (Except.error (Error.corrupted c.emptyMsg), afterRead ⟨[], pos⟩, readTrace)
    ∧ clear c key ⟨[], pos⟩
      = some (Except.error (Error.corrupted c.emptyMsg), afterRead ⟨[], pos⟩, readTrace)
    ∧ list_values c ⟨[], pos⟩
      = some (Except.error (Error.corrupted c.emptyMsg), afterRead ⟨[], pos⟩, readTrace)
    ∧ has_value c key ⟨"\x7b\x7d".data, pos⟩
      = some (Except.ok false, afterRead ⟨"\x7b\x7d".data, pos⟩, readTrace) := by
  have hp : c.parse (FileState.mk [] pos).content = Except.error c.emptyMsg :=
    c.parse_empty
  refine ⟨?_, ?_, ?_, ?_, ?_, ?_⟩
  · exact ms_parse_error c false (getFunc sd key) ⟨[], pos⟩ c.emptyMsg hp
  · exact ms_parse_error c false (hasValueFunc key) ⟨[], pos⟩ c.emptyMsg hp
  · exact ms_parse_error c true (setFunc sd key v) ⟨[], pos⟩ c.emptyMsg hp
  · exact ms_parse_error c true (clearFunc key) ⟨[], pos⟩ c.emptyMsg hp
  · exact ms_parse_error c false listValuesFunc ⟨[], pos⟩ c.emptyMsg hp
  · have h := has_value_spec c key ⟨"\x7b\x7d".data, pos⟩ [] c.parse_init
    simpa [mapContainsKey] using h

/-- Witness for C9: get on a concrete empty file. -/
theorem c9_witness :
    Settings.get modelCodec intSerde "a" ⟨[], 3⟩
      = some (Except.error (Error.corrupted modelCodec.emptyMsg),
          afterRead ⟨[], 3⟩, readTrace) :=
  (c9_empty_file_corrupted modelCodec intSerde "a" 5 3).1

/-- C10: the unwrap inside list_values never panics: the removal loop over
the keys collected from the map returns exactly the map's entries, one
(key, value) pair per entry with no extras and no duplicates, and
list_values returns them without panicking. -/
theorem c10_list_values_no_panic (c : JsonCodec) (fs : FileState) (m : JMap)
    (hparse : c.parse fs.content = Except.ok (Json.obj m)) :
    listLoop (m.map Prod.fst) m = some (m, [])
    ∧ list_values c fs = some (Except.ok m, afterRead fs, readTrace) :=
  ⟨listLoop_keys m, list_values_spec c fs m hparse⟩

/-- Witness for C10: a one-entry document. -/
theorem c10_witness :
    listLoop (([("a", Json.num 5)] : JMap).map Prod.fst) [("a", Json.num 5)]
      = some ([("a", Json.num 5)], [])
    ∧ list_values modelCodec (writtenState modelCodec [("a", Json.num 5)])
      = some (Except.ok [("a", Json.num 5)],
          afterRead (writtenState modelCodec [("a", Json.num 5)]), readTrace) :=
  c10_list_values_no_panic modelCodec (writtenState modelCodec [("a", Json.num 5)])
    [("a", Json.num 5)] (modelCodec.roundtrip (Json.obj [("a", Json.num 5)]))
